import Mathlib

/-!
Verification of the TheGab pipeline (TikTok scraping, restaurant extraction,
aggregation, upload).  The definitions below are a shallow embedding of the
Python sources `apify_scraper.py`, `thegab_scraper.py` and
`upload_to_supabase.py`: strings are `List Char`/`String`, Python ints are
`Nat` (all counters in the pipeline are non-negative), Python floats are
exact rationals `ℚ`, and the remote services (HTTP, Supabase) are injected
as explicit parameters (status sequences, per-record success predicates),
so every function is pure and executable.
-/

namespace TheGab

/-- Whitespace characters, as matched by the regex class `\s` and stripped by
`str.strip()` in `clean_text` (ASCII range). -/
def isSpace (c : Char) : Bool :=
  c = ' ' || c = '\t' || c = '\n' || c = '\r' || c = '\x0b' || c = '\x0c'

/-- The regex alternative `http\S+` matches at the head of `l`: the literal
`http` followed by at least one non-whitespace character. -/
def isHttpStart (l : List Char) : Bool :=
  match l with
  | a :: b :: c :: d :: e :: _ =>
    a = 'h' && b = 't' && c = 't' && d = 'p' && !isSpace e
  | _ => false

/-- The regex alternative `www\S+` matches at the head of `l`. -/
def isWwwStart (l : List Char) : Bool :=
  match l with
  | a :: b :: c :: d :: _ => a = 'w' && b = 'w' && c = 'w' && !isSpace d
  | _ => false

/-- `http\S+|www\S+` matches at the head of `l`.  (Either way the matched
span is the maximal non-whitespace run starting here, because the literal
and `\S+` are all non-whitespace and `\S+` is greedy.) -/
def startsWithUrl (l : List Char) : Bool := isHttpStart l || isWwwStart l

/-- One left-to-right pass of `re.sub(r'http\S+|www\S+', '', text)`.
State `true` means the scanner is inside a matched token, which extends to
the next whitespace character; unmatched positions are copied and the scan
advances one character, exactly as `re.sub` does. -/
def stripUrlsA : Bool → List Char → List Char
  | _, [] => []
  | true, c :: cs => if isSpace c then c :: stripUrlsA false cs else stripUrlsA true cs
  | false, c :: cs =>
    if startsWithUrl (c :: cs) then stripUrlsA true cs
    else c :: stripUrlsA false cs

/-- `re.sub(r'http\S+|www\S+', '', text)`. -/
def stripUrls (l : List Char) : List Char := stripUrlsA false l

/-- One pass of `re.sub(r'\s+', ' ', text)`: every maximal whitespace run is
replaced by a single `' '`.  State `true` means the single space of the
current run has already been emitted. -/
def collapseWsA : Bool → List Char → List Char
  | _, [] => []
  | true, c :: cs =>
    if isSpace c then collapseWsA true cs else c :: collapseWsA false cs
  | false, c :: cs =>
    if isSpace c then ' ' :: collapseWsA true cs else c :: collapseWsA false cs

/-- `re.sub(r'\s+', ' ', text)`. -/
def collapseWs (l : List Char) : List Char := collapseWsA false l

/-- `str.strip()`: drop whitespace from both ends. -/
def pyStrip (l : List Char) : List Char :=
  List.rdropWhile isSpace (List.dropWhile isSpace l)

/-- `str.lower()` (the pipeline's captions are handled per character;
`Char.toLower` lowers the basic latin letters exactly as `str.lower` does
on them). -/
def pyLower (l : List Char) : List Char := l.map Char.toLower

/-- `RestaurantExtractor.clean_text`: empty (falsy) input yields `""`,
otherwise URL-like tokens are removed, whitespace runs are collapsed to a
single space, the ends are stripped, and the result is lowercased. -/
def cleanText (l : List Char) : List Char :=
  if l = [] then [] else pyLower (pyStrip (collapseWs (stripUrls l)))

/-- No position of `l` is a `http\S+|www\S+` match: `re.sub` leaves such a
string unchanged. -/
def urlFree : List Char → Bool
  | [] => true
  | c :: cs => !startsWithUrl (c :: cs) && urlFree cs

/-- The head, if any, is not whitespace. -/
def headNotSpace : List Char → Bool
  | [] => true
  | c :: _ => !isSpace c

/-- Well-collapsed whitespace: every whitespace character is `' '` and is
not followed by another whitespace character (the shape `re.sub(r'\s+',
' ', ·)` produces). -/
def goodWs : List Char → Bool
  | [] => true
  | c :: cs => (!isSpace c || (c = ' ' && headNotSpace cs)) && goodWs cs

/-- No upper-case basic latin letter (the characters `str.lower` changes
and whose lowering can create a fresh `http`/`www` token). -/
def noUpper (l : List Char) : Prop :=
  ∀ c ∈ l, ¬(65 ≤ c.toNat ∧ c.toNat ≤ 90)

instance decNoUpper (l : List Char) : Decidable (noUpper l) :=
  inferInstanceAs (Decidable (∀ c ∈ l, ¬(65 ≤ c.toNat ∧ c.toNat ≤ 90)))

/-- Python substring containment `needle in hay`. -/
def inText (needle : List Char) : List Char → Bool
  | [] => needle.isPrefixOf []
  | c :: cs => needle.isPrefixOf (c :: cs) || inText needle cs

/-- Longest-common-subsequence helper: `lcsAux f a b = lcs (a :: as) b`
whenever `f = lcs as`; written this way so that the recursion is
structural in both arguments. -/
def lcsAux (f : List Char → Nat) (a : Char) : List Char → Nat
  | [] => 0
  | b :: bs => if a = b then f bs + 1 else max (lcsAux f a bs) (f (b :: bs))

/-- Length of a longest common subsequence of two character lists. -/
def lcs : List Char → List Char → Nat
  | [], _ => 0
  | a :: as, b => lcsAux (lcs as) a b

/-- rapidfuzz `fuzz.ratio` on a 0..1 scale: the normalized InDel similarity
`(|x| + |y| - dist) / (|x| + |y|)` with `dist = |x| + |y| - 2·lcs x y`
(and 1 for two empty strings, as in rapidfuzz). -/
def simRatio (x y : List Char) : ℚ :=
  if x.length + y.length = 0 then 1
  else (2 * lcs x y : ℚ) / (x.length + y.length)

/-- Maximum of a list of non-negative rationals (0 for the empty list). -/
def maxQ (l : List ℚ) : ℚ := l.foldr max 0

/-- The length-`k` windows of `l` (the whole of `l` when it is shorter
than `k`). -/
def windows (k : Nat) (l : List Char) : List (List Char) :=
  if l.length < k then [l]
  else (List.range (l.length - k + 1)).map (fun i => (l.drop i).take k)

/-- Model of rapidfuzz `fuzz.partial_ratio` on the 0..100 scale used by the
source: the best `fuzz.ratio` alignment of the shorter string against the
windows of the longer string.  (`fuzz.partial_ratio` is an external
library; this is its documented behaviour: "searches for the optimal
alignment of the shorter string in the longer string".) -/
def bestAlignRatio (x y : List Char) : ℚ :=
  let s := if x.length ≤ y.length then x else y
  let t := if x.length ≤ y.length then y else x
  100 * maxQ ((windows s.length t).map (fun w => simRatio s w))

/-- Python `round(q, 2)`.  (Python rounds floats half-to-even; in this
pipeline the only value ever rounded is exactly 1.0 — proved below — where
every rounding convention agrees, so Mathlib's `round` is used.) -/
def round2 (q : ℚ) : ℚ := (round (100 * q) : ℚ) / 100

/-- A restaurant mention extracted from a caption
(`{'name': ..., 'mentioned_as': ..., 'confidence': ...}`). -/
structure Mention where
  name : String
  mentionedAs : String
  confidence : ℚ
deriving DecidableEq, Repr

/-- `RestaurantExtractor.KNOWN_RESTAURANTS`, in the dict's insertion
order (Python 3.7+ dicts iterate in insertion order). -/
def KNOWN_RESTAURANTS : List (String × String) :=
  [ ("pai", "Pai Northern Thai Kitchen")
  , ("kenzo", "Kenzo Ramen")
  , ("alo", "Alo")
  , ("canteen", "Canteen")
  , ("ramen", "Ramen Restaurant")
  , ("molly", "Molly's Cafe")
  , ("hot pot", "Hot Pot Restaurant")
  , ("shim", "Shim Korean BBQ")
  , ("goro", "Goro Ramen")
  , ("piri", "Piri Piri Grille")
  , ("boku", "Boku Sushi")
  , ("peaches", "Peaches Restaurant")
  , ("giulio", "Giulio Pizzeria")
  , ("su", "Su Sushi")
  , ("kim", "Kim's Korean BBQ")
  , ("tabasco", "Tabasco Grille")
  , ("sushi", "Sushi Restaurant")
  , ("pizza", "Pizza Restaurant")
  , ("bbq", "BBQ Restaurant")
  ]

/-- The lexicon loop of `extract_restaurants`: for each
`(keyword, restaurant_name)` pair, on substring containment compute
`score = fuzz.partial_ratio(cleaned, keyword) / 100` and accept when
`score >= 0.60` and the canonical name was not seen yet (the accumulator
`seen` is the `seen` set of the source; 0.60 is exact here, see `round2`).
-/
def extractLoop (cleaned : List Char) : List (String × String) → List String → List Mention
  | [], _ => []
  | (kw, nm) :: rest, seen =>
    if inText kw.data cleaned then
      if 3 / 5 ≤ bestAlignRatio cleaned kw.data / 100 ∧ nm ∉ seen then
        { name := nm, mentionedAs := kw
        , confidence := round2 (bestAlignRatio cleaned kw.data / 100) }
          :: extractLoop cleaned rest (nm :: seen)
      else extractLoop cleaned rest seen
    else extractLoop cleaned rest seen

/-- `RestaurantExtractor.extract_restaurants`. -/
def extractRestaurants (caption : String) : List Mention :=
  if caption = "" then []
  else extractLoop (cleanText caption.data) KNOWN_RESTAURANTS []

/-- Outcome of the polling loop in `scrape_tiktok_with_apify`, carrying the
number of status GETs issued. -/
inductive PollResult where
  | success (checks : Nat)
  | failed (checks : Nat)
  | timedOut (checks : Nat)
deriving DecidableEq, Repr

/-- Polling loop of `scrape_tiktok_with_apify` with an injected clock and
injected status responses (`statuses i` is the status the i-th GET
returns).  In the source, each iteration first checks the wall-clock
guard `time.time() - start_time < max_wait` (max_wait = 600), then GETs
the status, breaking on SUCCEEDED, returning on FAILED, and otherwise
sleeping 10 seconds.  With instantaneous requests the i-th iteration runs
at t = 10·i, so the guard admits i = 0..59: exactly the `600 / 10` fuel
counted down here. -/
def pollIter (statuses : Nat → String) : Nat → Nat → PollResult
  | 0, checks => .timedOut checks
  | fuel + 1, checks =>
    if statuses checks = "SUCCEEDED" then .success (checks + 1)
    else if statuses checks = "FAILED" then .failed (checks + 1)
    else pollIter statuses fuel (checks + 1)

/-- The full polling loop: 600 second budget, 10 second interval. -/
def pollLoop (statuses : Nat → String) : PollResult := pollIter statuses (600 / 10) 0

/-- A raw Apify dataset item.  Each field is optional (`video.get(key,
default)` in the source); a present field stores the value as the string /
count the source would read (`str()` of a present id is its stored
string). -/
structure RawVideo where
  id : Option String := none
  videoUrl : Option String := none
  description : Option String := none
  diggCount : Option Nat := none
  commentCount : Option Nat := none
  shareCount : Option Nat := none
  playCount : Option Nat := none
  authorId : Option String := none
deriving DecidableEq, Repr

/-- A canonical Post record (the dict built in `scrape_tiktok_with_apify`
and annotated by `main`; timestamps and the provenance tag are not used by
any claim and are omitted; engagement counters are the non-negative
integers of the data model). -/
structure Post where
  id : String
  url : String := ""
  caption : String := ""
  likes : Nat := 0
  comments : Nat := 0
  shares : Nat := 0
  views : Nat := 0
  creator : String := ""
  hashtag : String := ""
  restaurants : List Mention := []
deriving DecidableEq, Repr

/-- The per-video transformation in `scrape_tiktok_with_apify`:
`str(video.get('id', ''))`, `video.get('diggCount', 0)`, etc. — every
absent field is defaulted, and the transform never fails. -/
def transformPost (hashtag : String) (v : RawVideo) : Post :=
  { id := v.id.getD ""
  , url := v.videoUrl.getD ""
  , caption := v.description.getD ""
  , likes := v.diggCount.getD 0
  , comments := v.commentCount.getD 0
  , shares := v.shareCount.getD 0
  , views := v.playCount.getD 0
  , creator := v.authorId.getD ""
  , hashtag := hashtag }

/-- Observable result of `scrape_tiktok_with_apify` for one hashtag:
the returned posts, the terminal status of the job, the number of status
GETs issued, the number of dataset GETs issued, and whether the
job-submission POST was issued at all. -/
structure ScrapeResult where
  posts : List Post
  status : String
  checks : Nat
  fetches : Nat
  submitted : Bool
deriving DecidableEq, Repr

/-- `scrape_tiktok_with_apify` with injected token, status responses and
dataset.  A missing APIFY_TOKEN returns `[]` before any request is built
(`submitted = false`, no GETs).  On SUCCEEDED the dataset is fetched once
and each item transformed; FAILED and timeout return `[]`. -/
def scrapeApify (token : Option String) (statuses : Nat → String)
    (dataset : List RawVideo) (hashtag : String) : ScrapeResult :=
  match token with
  | none =>
    { posts := [], status := "MISSING_TOKEN", checks := 0, fetches := 0, submitted := false }
  | some _ =>
    match pollLoop statuses with
    | .success n =>
      { posts := dataset.map (transformPost hashtag), status := "SUCCEEDED"
      , checks := n, fetches := 1, submitted := true }
    | .failed n =>
      { posts := [], status := "FAILED", checks := n, fetches := 0, submitted := true }
    | .timedOut n =>
      { posts := [], status := "TIMED_OUT", checks := n, fetches := 0, submitted := true }

/-- `Counter` insertion: names are recorded in first-seen order. -/
def addIfNew (acc : List String) (n : String) : List String :=
  if n ∈ acc then acc else acc ++ [n]

/-- The distinct names of a stream, in first-seen order (the iteration
order of a Python `Counter` / dict). -/
def firstSeen (names : List String) : List String := names.foldl addIfNew []

/-- The stream of mention names of a batch, in post order then mention
order — the order `main` feeds them to `restaurant_mentions`. -/
def mentionStream (posts : List Post) : List String :=
  posts.flatMap (fun p => p.restaurants.map (fun r => r.name))

/-- `Counter(mention names)` as an association list in first-seen order. -/
def countOcc (names : List String) : List (String × Nat) :=
  (firstSeen names).map (fun n => (n, names.count n))

/-- Stable insertion for a descending sort by count: `x` is placed before
the first element whose count does not exceed `x`'s, so earlier elements
with equal count stay in front. -/
def insertDesc (x : String × Nat) : List (String × Nat) → List (String × Nat)
  | [] => [x]
  | y :: ys => if y.2 ≤ x.2 then x :: y :: ys else y :: insertDesc x ys

/-- `Counter.most_common()`: `sorted(items, key=count, reverse=True)` — a
stable descending sort by count (Python's sort is stable and `reverse`
preserves stability). -/
def mostCommon : List (String × Nat) → List (String × Nat)
  | [] => []
  | x :: xs => insertDesc x (mostCommon xs)

/-- One row of `restaurant_stats` in `thegab_scraper.main`. -/
structure Rollup where
  restaurant : String
  mentions : Nat
  posts : Nat
  totalEngagement : Nat
  avgEngagement : Nat
deriving DecidableEq, Repr

/-- One `restaurant_stats` row: `rest_posts` are the posts whose
`restaurants` contain the name; `total_eng` sums likes+comments+shares
over them; `avg_eng = total_eng / len(rest_posts) if rest_posts else 0`,
stored as `int(avg_eng)` — on these non-negative integers `int()` of the
float quotient is exactly Nat floor division. -/
def mkRollup (posts : List Post) (nc : String × Nat) : Rollup :=
  let restPosts := posts.filter (fun p => p.restaurants.any (fun r => r.name = nc.1))
  let totalEng := (restPosts.map (fun p => p.likes + p.comments + p.shares)).sum
  { restaurant := nc.1
  , mentions := nc.2
  , posts := restPosts.length
  , totalEngagement := totalEng
  , avgEngagement := if restPosts = [] then 0 else totalEng / restPosts.length }

/-- The aggregation stage of `thegab_scraper.main`: one rollup per
distinct mentioned name, in `most_common()` order. -/
def aggregate (posts : List Post) : List Rollup :=
  (mostCommon (countOcc (mentionStream posts))).map (mkRollup posts)

/-- Observable result of `upload_to_supabase`: the success/failure
counters the source maintains and prints, the ids it attempted to upsert
(in order), and its boolean return value `uploaded > 0`. -/
structure UploadResult where
  uploaded : Nat
  errors : Nat
  attempted : List String
  returnedTrue : Bool
deriving DecidableEq, Repr

/-- The per-record loop of `upload_to_supabase`: each post is upserted
inside its own try/except; `upsertOk` injects which upsert calls succeed
(keyed by post id).  A failure increments `errors` and the loop moves on.
Returns (uploaded, errors, attempted ids). -/
def uploadLoop (upsertOk : String → Bool) : List Post → Nat × Nat × List String
  | [] => (0, 0, [])
  | p :: ps =>
    let r := uploadLoop upsertOk ps
    if upsertOk p.id then (r.1 + 1, r.2.1, p.id :: r.2.2)
    else (r.1, r.2.1 + 1, p.id :: r.2.2)

/-- `upload_to_supabase` with injected credentials and upsert outcomes.
Missing SUPABASE_URL/SUPABASE_KEY returns False before the client is
created: nothing is attempted. -/
def uploadToSupabase (creds : Option (String × String)) (upsertOk : String → Bool)
    (posts : List Post) : UploadResult :=
  match creds with
  | none => { uploaded := 0, errors := 0, attempted := [], returnedTrue := false }
  | some _ =>
    let r := uploadLoop upsertOk posts
    { uploaded := r.1, errors := r.2.1, attempted := r.2.2, returnedTrue := decide (0 < r.1) }

/-! Concrete inputs used by the example-level claims and witnesses. -/

/-- The caption of the spec's extraction example. -/
def exampleCaption : String := "Loved the ramen at kenzo last night!"

/-- The status sequence RUNNING, RUNNING, SUCCEEDED of the poller claim. -/
def rrsStatuses : Nat → String :=
  fun i => ["RUNNING", "RUNNING", "SUCCEEDED"].getD i "SUCCEEDED"

/-- A mention of restaurant "X" as used in the aggregation example. -/
def mentionX : Mention := { name := "X", mentionedAs := "x", confidence := 1 }

/-- P1 of the aggregation example: likes=10, comments=2, shares=1. -/
def examplePost1 : Post :=
  { id := "p1", likes := 10, comments := 2, shares := 1, restaurants := [mentionX] }

/-- P2 of the aggregation example: likes=5, comments=0, shares=0. -/
def examplePost2 : Post :=
  { id := "p2", likes := 5, comments := 0, shares := 0, restaurants := [mentionX] }

/-- A post with odd total engagement 5, for the averaging counterexample. -/
def oddPost1 : Post :=
  { id := "q1", likes := 3, comments := 1, shares := 1, restaurants := [mentionX] }

/-- A post with zero engagement, for the averaging counterexample. -/
def oddPost2 : Post :=
  { id := "q2", likes := 0, comments := 0, shares := 0, restaurants := [mentionX] }

/-! ## Basic facts about the fuzzy-matching model -/

theorem inText_iff {needle hay : List Char} : inText needle hay = true ↔ needle <:+: hay := by
  induction hay with
  | nil =>
    simp [inText, List.isPrefixOf_iff_prefix]
  | cons c cs ih =>
    simp [inText, List.isPrefixOf_iff_prefix, List.infix_cons_iff, ih]

theorem lcsAux_le_succ (f : List Char → Nat) (a : Char) (n : Nat)
    (hf : ∀ b, f b ≤ n) : ∀ b, lcsAux f a b ≤ n + 1 := by
  intro b
  induction b with
  | nil => simp [lcsAux]
  | cons b bs ih =>
    rw [lcsAux]
    split
    · exact Nat.succ_le_succ (hf bs)
    · exact max_le ih (Nat.le_succ_of_le (hf (b :: bs)))

theorem lcs_le_left : ∀ a b : List Char, lcs a b ≤ a.length := by
  intro a
  induction a with
  | nil => intro b; simp [lcs]
  | cons a as ih =>
    intro b
    exact lcsAux_le_succ (lcs as) a as.length ih b

theorem lcsAux_le_len (f : List Char → Nat) (a : Char)
    (hf : ∀ b, f b ≤ b.length) : ∀ b, lcsAux f a b ≤ b.length := by
  intro b
  induction b with
  | nil => simp [lcsAux]
  | cons b bs ih =>
    rw [lcsAux]
    split
    · exact Nat.succ_le_succ (hf bs)
    · exact max_le (Nat.le_succ_of_le ih) (hf (b :: bs))

theorem lcs_le_right : ∀ a b : List Char, lcs a b ≤ b.length := by
  intro a
  induction a with
  | nil => intro b; simp [lcs]
  | cons a as ih =>
    intro b
    exact lcsAux_le_len (lcs as) a ih b

theorem lcs_self : ∀ a : List Char, lcs a a = a.length := by
  intro a
  induction a with
  | nil => simp [lcs]
  | cons a as ih =>
    show lcsAux (lcs as) a (a :: as) = as.length + 1
    rw [lcsAux, if_pos rfl, ih]

theorem simRatio_le_one (x y : List Char) : simRatio x y ≤ 1 := by
  rw [simRatio]
  split
  · exact le_refl 1
  · rename_i h
    have hpos : (0 : ℚ) < (x.length : ℚ) + y.length := by
      have : 0 < x.length + y.length := Nat.pos_of_ne_zero h
      exact_mod_cast this
    rw [div_le_one hpos]
    have h1 := lcs_le_left x y
    have h2 := lcs_le_right x y
    have : (lcs x y : ℚ) ≤ x.length := by exact_mod_cast h1
    have : (lcs x y : ℚ) ≤ y.length := by exact_mod_cast h2
    linarith

theorem simRatio_self (x : List Char) : simRatio x x = 1 := by
  rw [simRatio]
  split
  · rfl
  · rename_i h
    rw [lcs_self]
    have hx : ((x.length : ℚ) + x.length) ≠ 0 := by
      have : x.length ≠ 0 := by omega
      have : (x.length : ℚ) ≠ 0 := by exact_mod_cast this
      intro hc
      apply this
      linarith
    rw [div_eq_one_iff_eq hx]
    ring

theorem le_maxQ_of_mem {q : ℚ} {l : List ℚ} (h : q ∈ l) : q ≤ maxQ l := by
  induction l with
  | nil => cases h
  | cons a as ih =>
    rcases List.mem_cons.1 h with rfl | h
    · exact le_max_left _ _
    · exact le_trans (ih h) (le_max_right _ _)

theorem maxQ_le_one {l : List ℚ} (h : ∀ q ∈ l, q ≤ 1) : maxQ l ≤ 1 := by
  induction l with
  | nil => norm_num [maxQ]
  | cons a as ih =>
    refine max_le (h a (by simp)) (ih fun q hq => h q (by simp [hq]))

theorem mem_windows_of_infix {b a : List Char} (h : b <:+: a) (hlt : b.length < a.length) :
    b ∈ windows b.length a := by
  obtain ⟨p, q, rfl⟩ := h
  rw [windows, if_neg (by omega)]
  refine List.mem_map.2 ⟨p.length, List.mem_range.2 (by simp; omega), ?_⟩
  rw [List.append_assoc, List.drop_left, List.take_left]

/-- A substring hit makes the best alignment exact: when the needle is an
infix of the haystack, the modelled `fuzz.partial_ratio` is 100. -/
theorem bestAlignRatio_eq_hundred {a b : List Char} (h : b <:+: a) :
    bestAlignRatio a b = 100 := by
  have hble : b.length ≤ a.length := h.length_le
  rw [bestAlignRatio]
  by_cases hab : a.length ≤ b.length
  · have hba : b = a := h.eq_of_length (le_antisymm hble hab)
    subst hba
    simp only [if_pos hab]
    rw [windows, if_neg (by omega)]
    have : b.length - b.length + 1 = 1 := by omega
    rw [this]
    simp [maxQ, List.range_succ, simRatio_self, max_eq_left (by norm_num : (0:ℚ) ≤ 1)]
  · simp only [if_neg hab]
    have hmem : b ∈ windows b.length a := mem_windows_of_infix h (by omega)
    have h1 : (1 : ℚ) ≤ maxQ ((windows b.length a).map (fun w => simRatio b w)) := by
      have : simRatio b b ∈ (windows b.length a).map (fun w => simRatio b w) :=
        List.mem_map.2 ⟨b, hmem, rfl⟩
      calc (1 : ℚ) = simRatio b b := (simRatio_self b).symm
        _ ≤ _ := le_maxQ_of_mem this
    have h2 : maxQ ((windows b.length a).map (fun w => simRatio b w)) ≤ 1 := by
      refine maxQ_le_one fun q hq => ?_
      obtain ⟨w, _, rfl⟩ := List.mem_map.1 hq
      exact simRatio_le_one b w
    rw [le_antisymm h2 h1]
    norm_num

theorem round2_one : round2 1 = 1 := by
  norm_num [round2]

/-! ## Extraction invariants -/

theorem extractLoop_confidence (cleaned : List Char) :
    ∀ lex seen m, m ∈ extractLoop cleaned lex seen → m.confidence = 1 := by
  intro lex
  induction lex with
  | nil => intro seen m hm; simp [extractLoop] at hm
  | cons kn rest ih =>
    intro seen m hm
    obtain ⟨kw, nm⟩ := kn
    rw [extractLoop] at hm
    split at hm
    · rename_i hin
      split at hm
      · rcases List.mem_cons.1 hm with rfl | hm
        · show round2 (bestAlignRatio (cleaned) kw.data / 100) = 1
          rw [bestAlignRatio_eq_hundred (inText_iff.1 hin)]
          norm_num [round2_one]
        · exact ih _ m hm
      · exact ih _ m hm
    · exact ih _ m hm

theorem extractLoop_names_fresh (cleaned : List Char) :
    ∀ lex seen,
      (∀ nm ∈ (extractLoop cleaned lex seen).map Mention.name, nm ∉ seen) ∧
      ((extractLoop cleaned lex seen).map Mention.name).Nodup := by
  intro lex
  induction lex with
  | nil => intro seen; simp [extractLoop]
  | cons kn rest ih =>
    intro seen
    obtain ⟨kw, nm⟩ := kn
    rw [extractLoop]
    split
    · split
      · rename_i hacc
        constructor
        · intro x hx
          rw [List.map_cons] at hx
          rcases List.mem_cons.1 hx with rfl | hx'
          · exact hacc.2
          · have := (ih (nm :: seen)).1 x hx'
            intro hxseen
            exact this (List.mem_cons_of_mem _ hxseen)
        · rw [List.map_cons]
          refine List.nodup_cons.2 ⟨?_, (ih (nm :: seen)).2⟩
          intro hmem
          exact (ih (nm :: seen)).1 nm hmem (List.mem_cons_self _ _)
      · exact ih seen
    · exact ih seen

/-- The (keyword, name) pairs `extract_restaurants` accepts.  Because a
substring hit always scores 1 (`bestAlignRatio_eq_hundred`), acceptance
is equivalent to containment plus name freshness; this Boolean
restatement lets concrete captions be evaluated by `decide`, which cannot
reduce `ℚ` division. -/
def acceptedPairs (cleaned : List Char) : List (String × String) → List String → List (String × String)
  | [], _ => []
  | (kw, nm) :: rest, seen =>
    if inText kw.data cleaned ∧ nm ∉ seen then
      (kw, nm) :: acceptedPairs cleaned rest (nm :: seen)
    else acceptedPairs cleaned rest seen

theorem extractLoop_eq_acceptedPairs (cleaned : List Char) :
    ∀ lex seen, extractLoop cleaned lex seen =
      (acceptedPairs cleaned lex seen).map
        (fun kn => { name := kn.2, mentionedAs := kn.1, confidence := 1 }) := by
  intro lex
  induction lex with
  | nil => intro seen; simp [extractLoop, acceptedPairs]
  | cons kn rest ih =>
    intro seen
    obtain ⟨kw, nm⟩ := kn
    rw [extractLoop, acceptedPairs]
    by_cases hin : inText kw.data cleaned
    · have hscore : bestAlignRatio cleaned kw.data / 100 = 1 := by
        rw [bestAlignRatio_eq_hundred (inText_iff.1 hin)]
        norm_num
      rw [if_pos hin, hscore]
      by_cases hnm : nm ∈ seen
      · rw [if_neg (by simp [hnm]), if_neg (by simp [hnm]), ih]
      · rw [if_pos ⟨by norm_num, hnm⟩, if_pos ⟨hin, hnm⟩, List.map_cons, ih, round2_one]
    · rw [if_neg hin, if_neg (by simp [hin]), ih]

/-! ## Claim theorems: extraction -/

/-- C1: for every caption, the mentions returned by
`extract_restaurants` contain at most one entry per canonical restaurant
name — the list of `name` fields has no duplicates (the `seen` set
deduplicates by canonical name, whichever keyword matched). -/
theorem extract_names_nodup (caption : String) :
    ((extractRestaurants caption).map Mention.name).Nodup := by
  rw [extractRestaurants]
  split
  · simp
  · exact (extractLoop_names_fresh (cleanText caption.data) KNOWN_RESTAURANTS []).2

/-- C10: every mention returned by `extract_restaurants` has confidence
exactly 1: acceptance requires the keyword to be a substring of the
normalized caption, which forces the partial-ratio score to 100, so the
0.60 threshold never bites and the rounded confidence is 1.0. -/
theorem extract_confidence_eq_one (caption : String) (m : Mention)
    (hm : m ∈ extractRestaurants caption) : m.confidence = 1 := by
  rw [extractRestaurants] at hm
  split at hm
  · cases hm
  · exact extractLoop_confidence (cleanText caption.data) KNOWN_RESTAURANTS [] m hm

/-- The two pairs accepted on the example caption (evaluated by
`decide`, which the ℚ-free `acceptedPairs` allows). -/
theorem acceptedPairs_example :
    acceptedPairs (cleanText exampleCaption.data) KNOWN_RESTAURANTS []
      = [("kenzo", "Kenzo Ramen"), ("ramen", "Ramen Restaurant")] := by
  decide

/-- The extractor's output on the example caption. -/
theorem extract_example_eval :
    extractRestaurants exampleCaption =
      [ { name := "Kenzo Ramen", mentionedAs := "kenzo", confidence := 1 }
      , { name := "Ramen Restaurant", mentionedAs := "ramen", confidence := 1 } ] := by
  rw [extractRestaurants, if_neg (by decide), extractLoop_eq_acceptedPairs,
    acceptedPairs_example]
  rfl

/-- Witness for C10 at a concrete caption and mention. -/
theorem extract_confidence_eq_one_witness :
    ({ name := "Kenzo Ramen", mentionedAs := "kenzo", confidence := 1 } : Mention)
      ∈ extractRestaurants exampleCaption ∧
    ({ name := "Kenzo Ramen", mentionedAs := "kenzo", confidence := 1 } : Mention).confidence
      = 1 :=
  ⟨by rw [extract_example_eval]; exact List.mem_cons_self _ _,
   extract_confidence_eq_one exampleCaption _
     (by rw [extract_example_eval]; exact List.mem_cons_self _ _)⟩

/-- C2: on "Loved the ramen at kenzo last night!" the extractor returns a
"Kenzo Ramen" mention before a "Ramen Restaurant" mention (lexicon order:
kenzo before ramen), each with confidence ≥ 0.60. -/
theorem extract_example_kenzo_before_ramen :
    ∃ i j : Nat, ∃ hi : i < (extractRestaurants exampleCaption).length,
      ∃ hj : j < (extractRestaurants exampleCaption).length,
        i < j ∧
        ((extractRestaurants exampleCaption).get ⟨i, hi⟩).name = "Kenzo Ramen" ∧
        ((extractRestaurants exampleCaption).get ⟨j, hj⟩).name = "Ramen Restaurant" ∧
        3 / 5 ≤ ((extractRestaurants exampleCaption).get ⟨i, hi⟩).confidence ∧
        3 / 5 ≤ ((extractRestaurants exampleCaption).get ⟨j, hj⟩).confidence := by
  refine ⟨0, 1, ?_, ?_, ?_, ?_, ?_, ?_, ?_⟩ <;> simp [extract_example_eval] <;> norm_num

/-! ## Claim theorems: polling loop -/

theorem pollIter_of_nonterminal (statuses : Nat → String)
    (h : ∀ i, statuses i ≠ "SUCCEEDED" ∧ statuses i ≠ "FAILED") :
    ∀ k c, pollIter statuses k c = .timedOut (c + k) := by
  intro k
  induction k with
  | zero => intro c; rfl
  | succ k ih =>
    intro c
    rw [pollIter, if_neg (h c).1, if_neg (h c).2, ih]
    congr 1
    omega

/-- C4: with the injected clock, the status sequence RUNNING, RUNNING,
SUCCEEDED makes the poller fetch the dataset exactly once and return its
transformed items after 3 status checks; a status sequence that never
reaches SUCCEEDED or FAILED yields TIMED_OUT with an empty result and no
dataset fetch, after at most 600/10 + 1 = 61 status checks. -/
theorem poller_success_and_timeout :
    (∀ (tok hashtag : String) (raw : List RawVideo),
      scrapeApify (some tok) rrsStatuses raw hashtag =
        { posts := raw.map (transformPost hashtag), status := "SUCCEEDED"
        , checks := 3, fetches := 1, submitted := true }) ∧
    (∀ statuses : Nat → String,
      (∀ i, statuses i ≠ "SUCCEEDED" ∧ statuses i ≠ "FAILED") →
      ∀ (tok hashtag : String) (raw : List RawVideo),
        (scrapeApify (some tok) statuses raw hashtag).status = "TIMED_OUT" ∧
        (scrapeApify (some tok) statuses raw hashtag).posts = [] ∧
        (scrapeApify (some tok) statuses raw hashtag).checks ≤ 600 / 10 + 1 ∧
        (scrapeApify (some tok) statuses raw hashtag).fetches = 0) := by
  constructor
  · intro tok hashtag raw
    have hp : pollLoop rrsStatuses = .success 3 := by decide
    simp [scrapeApify, hp]
  · intro statuses h tok hashtag raw
    have hp : pollLoop statuses = .timedOut 60 :=
      pollIter_of_nonterminal statuses h (600 / 10) 0
    simp [scrapeApify, hp]

/-- Witness for C4's hypothesis: the always-RUNNING status sequence. -/
theorem poller_success_and_timeout_witness :
    (scrapeApify (some "tok") (fun _ => "RUNNING") [] "torontofood").status = "TIMED_OUT" ∧
    (scrapeApify (some "tok") (fun _ => "RUNNING") [] "torontofood").posts = [] ∧
    (scrapeApify (some "tok") (fun _ => "RUNNING") [] "torontofood").checks ≤ 600 / 10 + 1 ∧
    (scrapeApify (some "tok") (fun _ => "RUNNING") [] "torontofood").fetches = 0 :=
  poller_success_and_timeout.2 (fun _ => "RUNNING")
    (fun _ => ⟨by show "RUNNING" ≠ "SUCCEEDED"; decide,
               by show "RUNNING" ≠ "FAILED"; decide⟩) "tok" "torontofood" []

/-! ## Claim theorems: persistence -/

theorem filter_length_partition {α : Type} (f : α → Bool) (l : List α) :
    (l.filter f).length + (l.filter (fun x => !f x)).length = l.length := by
  induction l with
  | nil => rfl
  | cons x xs ih =>
    by_cases h : f x <;> simp [List.filter_cons, h, ih] <;> omega

theorem uploadLoop_spec (upsertOk : String → Bool) :
    ∀ posts : List Post,
      uploadLoop upsertOk posts =
        ((posts.filter (fun p => upsertOk p.id)).length,
         (posts.filter (fun p => !upsertOk p.id)).length,
         posts.map (fun p => p.id)) := by
  intro posts
  induction posts with
  | nil => rfl
  | cons p ps ih =>
    rw [uploadLoop, ih]
    by_cases h : upsertOk p.id
    · simp [h, List.filter_cons]
    · simp [h, List.filter_cons]

/-- C7: with credentials present, the persister attempts every record —
a failing upsert is counted in `errors` and does not stop later records —
and reports `uploaded` = number of successful upserts, `errors` = number
of failures, which partition the batch. -/
theorem upload_best_effort (upsertOk : String → Bool) (posts : List Post) :
    (uploadToSupabase (some ("url", "key")) upsertOk posts).attempted
        = posts.map (fun p => p.id) ∧
    (uploadToSupabase (some ("url", "key")) upsertOk posts).uploaded
        = (posts.filter (fun p => upsertOk p.id)).length ∧
    (uploadToSupabase (some ("url", "key")) upsertOk posts).errors
        = (posts.filter (fun p => !upsertOk p.id)).length ∧
    (uploadToSupabase (some ("url", "key")) upsertOk posts).uploaded
        + (uploadToSupabase (some ("url", "key")) upsertOk posts).errors
        = posts.length := by
  have h := uploadLoop_spec upsertOk posts
  refine ⟨?_, ?_, ?_, ?_⟩ <;> simp [uploadToSupabase, h, filter_length_partition]

/-- C8: a missing credential aborts the stage before any remote call: no
job submission, no status or dataset GET, and no upsert is attempted; the
failure is surfaced as an empty result / a False return. -/
theorem missing_credentials_no_calls :
    (∀ (statuses : Nat → String) (raw : List RawVideo) (hashtag : String),
      scrapeApify none statuses raw hashtag =
        { posts := [], status := "MISSING_TOKEN", checks := 0, fetches := 0
        , submitted := false }) ∧
    (∀ (upsertOk : String → Bool) (posts : List Post),
      uploadToSupabase none upsertOk posts =
        { uploaded := 0, errors := 0, attempted := [], returnedTrue := false }) :=
  ⟨fun _ _ _ => rfl, fun _ _ => rfl⟩

/-! ## Claim theorems: transformer -/

/-- C9 fails on the code: a raw record with no `id` field is transformed
to a Post whose id is the empty string (`str(video.get('id', ''))`). -/
theorem transform_id_can_be_empty :
    ¬ (∀ (hashtag : String) (v : RawVideo), (transformPost hashtag v).id ≠ "") :=
  fun hall => hall "torontofood" {} rfl

/-- C9 (amended): the transformed Post's id is non-empty whenever the raw
record carries a non-empty id value; a record without one yields the
empty id. -/
theorem transform_id_nonempty_of_present (hashtag : String) (v : RawVideo)
    (s : String) (hs : v.id = some s) (hne : s ≠ "") :
    (transformPost hashtag v).id ≠ "" := by
  simp [transformPost, hs, hne]

/-- Witness for the amended C9 at a concrete raw record. -/
theorem transform_id_nonempty_of_present_witness :
    (transformPost "torontofood" { id := some "7423" }).id ≠ "" :=
  transform_id_nonempty_of_present "torontofood" { id := some "7423" } "7423" rfl
    (by decide)

/-! ## Aggregation: order and averages -/

/-- The ordering the rollup list must satisfy: strictly fewer mentions, or
equal mentions and an earlier first occurrence (`ρ` is the first-seen
rank). -/
def rollupLE (ρ : String × Nat → Nat) (a b : String × Nat) : Prop :=
  b.2 < a.2 ∨ (a.2 = b.2 ∧ ρ a < ρ b)

theorem mem_insertDesc {x y : String × Nat} :
    ∀ l, y ∈ insertDesc x l ↔ y = x ∨ y ∈ l := by
  intro l
  induction l with
  | nil => simp [insertDesc]
  | cons z zs ih =>
    rw [insertDesc]
    split
    · simp [List.mem_cons]
    · simp only [List.mem_cons, ih]
      tauto

theorem mem_mostCommon {y : String × Nat} :
    ∀ l, y ∈ mostCommon l ↔ y ∈ l := by
  intro l
  induction l with
  | nil => simp [mostCommon]
  | cons x xs ih => simp [mostCommon, mem_insertDesc, ih]

theorem insertDesc_pairwise (ρ : String × Nat → Nat) (x : String × Nat) :
    ∀ l, l.Pairwise (rollupLE ρ) → (∀ y ∈ l, ρ x < ρ y) →
      (insertDesc x l).Pairwise (rollupLE ρ) := by
  intro l
  induction l with
  | nil => intro _ _; simp [insertDesc]
  | cons y ys ih =>
    intro hl hx
    rw [insertDesc]
    rcases List.pairwise_cons.1 hl with ⟨hy, hys⟩
    split
    · rename_i hle
      refine List.pairwise_cons.2 ⟨?_, hl⟩
      intro z hz
      rcases List.mem_cons.1 hz with rfl | hz'
      · rcases Nat.lt_or_ge z.2 x.2 with h | h
        · exact Or.inl h
        · exact Or.inr ⟨Nat.le_antisymm (by omega) (by omega), hx z (by simp)⟩
      · have hzy : z.2 ≤ y.2 := by
          rcases hy z hz' with h | h
          · omega
          · omega
        rcases Nat.lt_or_ge z.2 x.2 with h | h
        · exact Or.inl h
        · exact Or.inr ⟨by omega, hx z (by simp [hz'])⟩
    · rename_i hgt
      refine List.pairwise_cons.2 ⟨?_, ih hys (fun z hz => hx z (by simp [hz]))⟩
      intro z hz
      rcases (mem_insertDesc ys).1 hz with rfl | hz'
      · exact Or.inl (by omega)
      · exact hy z hz'

theorem mostCommon_pairwise (ρ : String × Nat → Nat) :
    ∀ l, l.Pairwise (fun a b => ρ a < ρ b) →
      (mostCommon l).Pairwise (rollupLE ρ) := by
  intro l
  induction l with
  | nil => intro _; simp [mostCommon]
  | cons x xs ih =>
    intro hl
    rcases List.pairwise_cons.1 hl with ⟨hx, hxs⟩
    rw [mostCommon]
    exact insertDesc_pairwise ρ x (mostCommon xs) (ih hxs)
      (fun y hy => hx y ((mem_mostCommon xs).1 hy))

theorem addIfNew_nodup {acc : List String} {n : String} (h : acc.Nodup) :
    (addIfNew acc n).Nodup := by
  rw [addIfNew]
  split
  · exact h
  · rename_i hn
    simp [List.nodup_append, h, hn]

theorem foldl_addIfNew_nodup :
    ∀ (l acc : List String), acc.Nodup → (l.foldl addIfNew acc).Nodup := by
  intro l
  induction l with
  | nil => intro acc h; exact h
  | cons n ns ih => intro acc h; exact ih _ (addIfNew_nodup h)

theorem firstSeen_nodup (names : List String) : (firstSeen names).Nodup :=
  foldl_addIfNew_nodup names [] List.nodup_nil

theorem nodup_pairwise_indexOf {fs : List String} (h : fs.Nodup) :
    fs.Pairwise (fun a b => fs.indexOf a < fs.indexOf b) := by
  induction fs with
  | nil => simp
  | cons x t ih =>
    rcases List.nodup_cons.1 h with ⟨hx, ht⟩
    refine List.pairwise_cons.2 ⟨?_, ?_⟩
    · intro b hb
      have hbx : b ≠ x := fun hc => hx (hc ▸ hb)
      rw [List.indexOf_cons_self, List.indexOf_cons_ne t hbx.symm]
      omega
    · refine (ih ht).imp_of_mem ?_
      intro a b ha hb hab
      have hax : a ≠ x := fun hc => hx (hc ▸ ha)
      have hbx : b ≠ x := fun hc => hx (hc ▸ hb)
      rw [List.indexOf_cons_ne t hax.symm, List.indexOf_cons_ne t hbx.symm]
      omega

/-- C6: the rollup list is sorted by strictly descending mention count,
and rollups with equal counts appear in the order their restaurant name
was first seen in the batch's mention stream. -/
theorem aggregate_sorted_desc_stable (posts : List Post) :
    (aggregate posts).Pairwise (fun a b =>
      b.mentions < a.mentions ∨
      (a.mentions = b.mentions ∧
        (firstSeen (mentionStream posts)).indexOf a.restaurant
          < (firstSeen (mentionStream posts)).indexOf b.restaurant)) := by
  have h1 : (firstSeen (mentionStream posts)).Pairwise
      (fun a b => (firstSeen (mentionStream posts)).indexOf a
        < (firstSeen (mentionStream posts)).indexOf b) :=
    nodup_pairwise_indexOf (firstSeen_nodup (mentionStream posts))
  have h2 : (countOcc (mentionStream posts)).Pairwise
      (fun a b => (firstSeen (mentionStream posts)).indexOf a.1
        < (firstSeen (mentionStream posts)).indexOf b.1) := by
    rw [countOcc]
    exact List.pairwise_map.2 h1
  have h3 := mostCommon_pairwise
    (fun p => (firstSeen (mentionStream posts)).indexOf p.1) _ h2
  rw [aggregate]
  refine List.pairwise_map.2 (h3.imp ?_)
  intro a b hab
  simpa [mkRollup, rollupLE] using hab

/-- C5 fails on the code: rollup averages are stored as `int(avg_eng)` —
with total engagement 5 over 2 posts the stored average is 2, not the
exact quotient 5/2. -/
theorem aggregate_avg_not_exact :
    aggregate [oddPost1, oddPost2] =
      [{ restaurant := "X", mentions := 2, posts := 2, totalEngagement := 5
       , avgEngagement := 2 }] ∧
    ¬ ((2 : ℚ) = (5 : ℚ) / 2) := by
  constructor
  · decide
  · norm_num

/-- C5 (amended): every rollup's stored average is the floor of
`totalEngagement / postCount` (Nat division; 0 when `postCount = 0`), and
on the spec's example batch — "X" in P1(10,2,1) and P2(5,0,0) — the
rollup is postCount 2, totalEngagement 18, avgEngagement 9. -/
theorem aggregate_avg_floor :
    (∀ (posts : List Post), ∀ r ∈ aggregate posts,
      r.avgEngagement = r.totalEngagement / r.posts ∧
      (r.posts = 0 → r.avgEngagement = 0)) ∧
    aggregate [examplePost1, examplePost2] =
      [{ restaurant := "X", mentions := 2, posts := 2, totalEngagement := 18
       , avgEngagement := 9 }] := by
  constructor
  · intro posts r hr
    rw [aggregate] at hr
    obtain ⟨nc, _, rfl⟩ := List.mem_map.1 hr
    simp only [mkRollup]
    constructor
    · split
      · rename_i hnil
        simp [hnil]
      · rfl
    · intro hz
      split
      · rfl
      · rename_i hnil
        exact absurd (List.length_eq_zero.1 hz) hnil
  · decide

/-- Witness for the amended C5 at the example batch. -/
theorem aggregate_avg_floor_witness :
    ({ restaurant := "X", mentions := 2, posts := 2, totalEngagement := 18
     , avgEngagement := 9 } : Rollup).avgEngagement
      = ({ restaurant := "X", mentions := 2, posts := 2, totalEngagement := 18
         , avgEngagement := 9 } : Rollup).totalEngagement
        / ({ restaurant := "X", mentions := 2, posts := 2, totalEngagement := 18
           , avgEngagement := 9 } : Rollup).posts :=
  (aggregate_avg_floor.1 [examplePost1, examplePost2] _ (by
    rw [aggregate_avg_floor.2]
    exact List.mem_cons_self _ _)).1

/-! ## Text normalization: the URL-stripping invariant

`clean_text` lowercases only after removing URL tokens, so an upper-case
`HTTP`/`WWW` token survives the first pass and is removed by a second one
(C3's counterexample).  On input without upper-case letters the function
is idempotent; the lemmas below establish the three fixpoints (URL-free,
well-collapsed whitespace, stripped ends) of a cleaned string. -/

theorem startsWithUrl_head {c : Char} {l : List Char}
    (h : startsWithUrl (c :: l) = true) : c = 'h' ∨ c = 'w' := by
  by_contra hc
  push_neg at hc
  obtain ⟨h1, h2⟩ := hc
  rcases l with _ | ⟨b, _ | ⟨c2, _ | ⟨d, _ | ⟨e, r⟩⟩⟩⟩ <;>
    simp [startsWithUrl, isHttpStart, isWwwStart, h1, h2] at h

theorem startsWithUrl_space_head {c : Char} {l : List Char} (hc : isSpace c = true) :
    startsWithUrl (c :: l) = false := by
  rcases hh : startsWithUrl (c :: l) with _ | _
  · rfl
  · rcases startsWithUrl_head hh with rfl | rfl
    · exact absurd hc (by decide)
    · exact absurd hc (by decide)

theorem startsWithUrl_append {l r : List Char} (h : startsWithUrl l = true) :
    startsWithUrl (l ++ r) = true := by
  rcases l with _ | ⟨a, _ | ⟨b, _ | ⟨c2, _ | ⟨d, _ | ⟨e, t⟩⟩⟩⟩⟩ <;>
    rcases r with _ | ⟨x, r⟩ <;>
    simp_all [startsWithUrl, isHttpStart, isWwwStart]

/-- The characters `re.sub` scans for a match are exactly the leading
non-whitespace run: growing that run preserves a match. -/
theorem startsWithUrl_mono {c : Char} {l' l : List Char}
    (hpre : l'.takeWhile (fun x => !isSpace x) <+: l.takeWhile (fun x => !isSpace x))
    (h : startsWithUrl (c :: l') = true) : startsWithUrl (c :: l) = true := by
  have hfw : (l.takeWhile (fun x => !isSpace x)) <+: l := List.takeWhile_prefix _
  rw [startsWithUrl, Bool.or_eq_true] at h
  rcases h with hb | hb
  · -- http: l' = 't' :: 't' :: 'p' :: e :: r with e non-whitespace
    rcases l' with _ | ⟨b, _ | ⟨c2, _ | ⟨d, _ | ⟨e, r⟩⟩⟩⟩ <;>
      simp [isHttpStart] at hb
    obtain ⟨⟨⟨⟨rfl, rfl⟩, rfl⟩, rfl⟩, he⟩ := hb
    have htw : ('t' :: 't' :: 'p' :: e :: r).takeWhile (fun x => !isSpace x)
        = 't' :: 't' :: 'p' :: e :: r.takeWhile (fun x => !isSpace x) := by
      have h1 : isSpace 't' = false := by decide
      have h2 : isSpace 'p' = false := by decide
      simp [List.takeWhile_cons, h1, h2, he]
    rw [htw] at hpre
    obtain ⟨k1, hk1⟩ := hpre
    obtain ⟨k2, hk2⟩ := hfw
    rw [← hk1] at hk2
    rw [← hk2]
    simp only [List.cons_append, List.append_assoc]
    simp [startsWithUrl, isHttpStart, he]
  · -- www: l' = 'w' :: 'w' :: d :: r with d non-whitespace
    rcases l' with _ | ⟨b, _ | ⟨c2, _ | ⟨d, r⟩⟩⟩ <;>
      simp [isWwwStart] at hb
    obtain ⟨⟨⟨rfl, rfl⟩, rfl⟩, hd⟩ := hb
    have htw : ('w' :: 'w' :: d :: r).takeWhile (fun x => !isSpace x)
        = 'w' :: 'w' :: d :: r.takeWhile (fun x => !isSpace x) := by
      have h1 : isSpace 'w' = false := by decide
      simp [List.takeWhile_cons, h1, hd]
    rw [htw] at hpre
    obtain ⟨k1, hk1⟩ := hpre
    obtain ⟨k2, hk2⟩ := hfw
    rw [← hk1] at hk2
    rw [← hk2]
    simp only [List.cons_append, List.append_assoc]
    simp [startsWithUrl, isWwwStart, hd]

/-- Deleting URL tokens can only shorten the leading non-whitespace run
(a deleted token always ends right before whitespace or the end). -/
theorem takeWhile_stripUrlsA (s : List Char) :
    ((stripUrlsA false s).takeWhile (fun x => !isSpace x)
      <+: s.takeWhile (fun x => !isSpace x)) ∧
    (stripUrlsA true s).takeWhile (fun x => !isSpace x) = [] := by
  induction s with
  | nil => exact ⟨List.nil_prefix, rfl⟩
  | cons c cs ih =>
    constructor
    · rw [stripUrlsA]
      split
      · rw [ih.2]
        exact List.nil_prefix
      · cases hc : isSpace c
        · simp only [List.takeWhile_cons, hc, Bool.not_false, if_pos]
          exact List.cons_prefix_cons.2 ⟨rfl, ih.1⟩
        · simp [List.takeWhile_cons, hc]
    · rw [stripUrlsA]
      split
      · rename_i hc
        simp [List.takeWhile_cons, hc]
      · rename_i hc
        exact ih.2

theorem urlFree_tail {c : Char} {cs : List Char} (h : urlFree (c :: cs) = true) :
    urlFree cs = true := by
  rw [urlFree, Bool.and_eq_true] at h
  exact h.2

theorem urlFree_not_head {c : Char} {cs : List Char} (h : urlFree (c :: cs) = true) :
    startsWithUrl (c :: cs) = false := by
  rw [urlFree, Bool.and_eq_true] at h
  simpa using h.1

theorem urlFree_dropWhile (p : Char → Bool) {s : List Char} (h : urlFree s = true) :
    urlFree (s.dropWhile p) = true := by
  induction s with
  | nil => exact h
  | cons c cs ih =>
    rw [List.dropWhile_cons]
    split
    · exact ih (urlFree_tail h)
    · exact h

theorem urlFree_append_left {t r : List Char} (h : urlFree (t ++ r) = true) :
    urlFree t = true := by
  induction t with
  | nil => rfl
  | cons c t ih =>
    rw [List.cons_append] at h
    rw [urlFree, Bool.and_eq_true]
    refine ⟨?_, ih (urlFree_tail h)⟩
    cases hsw : startsWithUrl (c :: t)
    · rfl
    · have := startsWithUrl_append (r := r) hsw
      rw [List.cons_append] at this
      rw [urlFree_not_head h] at this
      cases this

/-- The output of the URL-stripping pass contains no match at all: every
occurrence of `http`/`www` it keeps is followed by whitespace or the end
of the string. -/
theorem urlFree_stripUrlsA (s : List Char) :
    urlFree (stripUrlsA false s) = true ∧ urlFree (stripUrlsA true s) = true := by
  induction s with
  | nil => exact ⟨rfl, rfl⟩
  | cons c cs ih =>
    constructor
    · rw [stripUrlsA]
      split
      · exact ih.2
      · rename_i hcond
        rw [urlFree, Bool.and_eq_true]
        refine ⟨?_, ih.1⟩
        cases hsw : startsWithUrl (c :: stripUrlsA false cs)
        · rfl
        · exact absurd (startsWithUrl_mono (takeWhile_stripUrlsA cs).1 hsw) hcond
    · rw [stripUrlsA]
      split
      · rename_i hc
        rw [urlFree, Bool.and_eq_true]
        exact ⟨by simp [startsWithUrl_space_head hc], ih.1⟩
      · exact ih.2

theorem stripUrlsA_eq_self {s : List Char} (h : urlFree s = true) :
    stripUrlsA false s = s := by
  induction s with
  | nil => rfl
  | cons c cs ih =>
    rw [stripUrlsA, if_neg (by simp [urlFree_not_head h]), ih (urlFree_tail h)]

/-- Collapsing whitespace preserves the leading non-whitespace run
exactly. -/
theorem takeWhile_collapseWsA (s : List Char) :
    (collapseWsA false s).takeWhile (fun x => !isSpace x)
      = s.takeWhile (fun x => !isSpace x) := by
  induction s with
  | nil => rfl
  | cons c cs ih =>
    rw [collapseWsA]
    cases hc : isSpace c
    · simp [List.takeWhile_cons, hc, ih]
    · simp [List.takeWhile_cons, hc, (show isSpace ' ' = true by decide)]

theorem collapseWsA_true_eq (s : List Char) :
    collapseWsA true s = collapseWsA false (s.dropWhile isSpace) := by
  induction s with
  | nil => rfl
  | cons c cs ih =>
    rw [collapseWsA, List.dropWhile_cons]
    cases hc : isSpace c
    · simp only [hc, Bool.false_eq_true, if_false, collapseWsA]
    · simp only [hc, if_true, ih]

theorem urlFree_collapseWsA :
    ∀ (n : Nat) (s : List Char), s.length ≤ n → urlFree s = true →
      urlFree (collapseWsA false s) = true := by
  intro n
  induction n with
  | zero =>
    intro s hs _
    have hnil : s = [] := List.eq_nil_of_length_eq_zero (by omega)
    subst hnil
    rfl
  | succ n ih =>
    intro s hs h
    rcases s with _ | ⟨c, cs⟩
    · rfl
    rw [collapseWsA]
    cases hc : isSpace c
    · simp only [Bool.false_eq_true, if_false]
      rw [urlFree, Bool.and_eq_true]
      refine ⟨?_, ih cs (by simpa using hs) (urlFree_tail h)⟩
      cases hsw : startsWithUrl (c :: collapseWsA false cs)
      · rfl
      · have hpre : (collapseWsA false cs).takeWhile (fun x => !isSpace x)
            <+: cs.takeWhile (fun x => !isSpace x) :=
          ⟨[], by rw [List.append_nil, takeWhile_collapseWsA]⟩
        have := startsWithUrl_mono hpre hsw
        rw [urlFree_not_head h] at this
        cases this
    · simp only [if_true]
      rw [collapseWsA_true_eq, urlFree, Bool.and_eq_true]
      constructor
      · simp [startsWithUrl_space_head (show isSpace ' ' = true by decide)]
      · refine ih (cs.dropWhile isSpace) ?_ (urlFree_dropWhile _ (urlFree_tail h))
        have := (List.dropWhile_sublist (l := cs) isSpace).length_le
        simp only [List.length_cons] at hs
        omega

theorem goodWs_collapseWsA (s : List Char) :
    goodWs (collapseWsA false s) = true ∧
    (headNotSpace (collapseWsA true s) = true ∧ goodWs (collapseWsA true s) = true) := by
  induction s with
  | nil => exact ⟨rfl, rfl, rfl⟩
  | cons c cs ih =>
    rw [collapseWsA, collapseWsA]
    cases hc : isSpace c
    · simp only [Bool.false_eq_true, if_false]
      have hgood : goodWs (c :: collapseWsA false cs) = true := by
        rw [goodWs, Bool.and_eq_true]
        exact ⟨by simp [hc], ih.1⟩
      exact ⟨hgood, by simp [headNotSpace, hc], hgood⟩
    · simp only [if_true]
      refine ⟨?_, ih.2⟩
      rw [goodWs, Bool.and_eq_true]
      refine ⟨?_, ih.2.2⟩
      simp [ih.2.1]

theorem collapseWsA_of_goodWs :
    ∀ s : List Char, goodWs s = true →
      collapseWsA false s = s ∧ (headNotSpace s = true → collapseWsA true s = s) := by
  intro s
  induction s with
  | nil => exact fun _ => ⟨rfl, fun _ => rfl⟩
  | cons c cs ih =>
    intro h
    rw [goodWs, Bool.and_eq_true] at h
    obtain ⟨hcond, hcs⟩ := h
    cases hc : isSpace c
    · have heq : collapseWsA false (c :: cs) = c :: cs := by
        rw [collapseWsA]
        simp only [hc, Bool.false_eq_true, if_false, (ih hcs).1]
      refine ⟨heq, fun _ => ?_⟩
      rw [collapseWsA]
      simp only [hc, Bool.false_eq_true, if_false, (ih hcs).1]
    · rw [hc] at hcond
      simp only [Bool.not_true, Bool.false_or, Bool.and_eq_true, decide_eq_true_eq] at hcond
      obtain ⟨hsp, hhead⟩ := hcond
      constructor
      · rw [collapseWsA]
        simp only [hc, if_true, collapseWsA_true_eq]
        have hdw : cs.dropWhile isSpace = cs := by
          rcases cs with _ | ⟨d, cs'⟩
          · rfl
          · rw [List.dropWhile_cons, if_neg]
            simp only [headNotSpace] at hhead
            simpa using hhead
        rw [hdw, (ih hcs).1, hsp]
      · intro hh
        simp only [headNotSpace, hc] at hh
        cases hh

theorem goodWs_tail {c : Char} {cs : List Char} (h : goodWs (c :: cs) = true) :
    goodWs cs = true := by
  rw [goodWs, Bool.and_eq_true] at h
  exact h.2

theorem goodWs_dropWhile (p : Char → Bool) {s : List Char} (h : goodWs s = true) :
    goodWs (s.dropWhile p) = true := by
  induction s with
  | nil => exact h
  | cons c cs ih =>
    rw [List.dropWhile_cons]
    split
    · exact ih (goodWs_tail h)
    · exact h

theorem goodWs_append_left {t r : List Char} (h : goodWs (t ++ r) = true) :
    goodWs t = true := by
  induction t with
  | nil => rfl
  | cons c t ih =>
    rw [List.cons_append] at h
    rw [goodWs, Bool.and_eq_true] at h ⊢
    refine ⟨?_, ih h.2⟩
    have h1 := h.1
    rcases t with _ | ⟨d, t'⟩
    · rw [Bool.or_eq_true] at h1
      rcases h1 with h2 | h2
      · simp [h2]
      · rw [Bool.and_eq_true] at h2
        simp [headNotSpace, h2.1]
    · exact h1

theorem urlFree_pyStrip {l : List Char} (h : urlFree l = true) :
    urlFree (pyStrip l) = true := by
  rw [pyStrip]
  have h1 : urlFree (l.dropWhile isSpace) = true := urlFree_dropWhile _ h
  obtain ⟨k, hk⟩ := List.rdropWhile_prefix isSpace (l.dropWhile isSpace)
  exact urlFree_append_left (by rw [hk]; exact h1)

theorem goodWs_pyStrip {l : List Char} (h : goodWs l = true) :
    goodWs (pyStrip l) = true := by
  rw [pyStrip]
  have h1 : goodWs (l.dropWhile isSpace) = true := goodWs_dropWhile _ h
  obtain ⟨k, hk⟩ := List.rdropWhile_prefix isSpace (l.dropWhile isSpace)
  exact goodWs_append_left (by rw [hk]; exact h1)

/-- `strip()` is idempotent. -/
theorem pyStrip_pyStrip (l : List Char) : pyStrip (pyStrip l) = pyStrip l := by
  have hdw : (pyStrip l).dropWhile isSpace = pyStrip l := by
    rcases hm : pyStrip l with _ | ⟨x, xs⟩
    · rfl
    · rw [pyStrip] at hm
      obtain ⟨k, hk⟩ := List.rdropWhile_prefix isSpace (l.dropWhile isSpace)
      rw [hm] at hk
      have h0 := List.head?_dropWhile_not isSpace l
      rw [← hk] at h0
      simp only [List.cons_append, List.head?_cons] at h0
      rw [List.dropWhile_cons, if_neg (by simp [h0])]
  show List.rdropWhile isSpace ((pyStrip l).dropWhile isSpace) = pyStrip l
  rw [hdw, pyStrip, List.rdropWhile_idempotent]

theorem mem_stripUrlsA {c : Char} :
    ∀ (b : Bool) (s : List Char), c ∈ stripUrlsA b s → c ∈ s := by
  intro b s
  induction s generalizing b with
  | nil => intro h; cases b <;> exact absurd h (by simp [stripUrlsA])
  | cons d cs ih =>
    intro h
    cases b <;> rw [stripUrlsA] at h
    · split at h
      · exact List.mem_cons_of_mem _ (ih _ h)
      · rcases List.mem_cons.1 h with rfl | h'
        · exact List.mem_cons_self _ _
        · exact List.mem_cons_of_mem _ (ih _ h')
    · split at h
      · rcases List.mem_cons.1 h with rfl | h'
        · exact List.mem_cons_self _ _
        · exact List.mem_cons_of_mem _ (ih _ h')
      · exact List.mem_cons_of_mem _ (ih _ h)

theorem mem_collapseWsA {c : Char} :
    ∀ (b : Bool) (s : List Char), c ∈ collapseWsA b s → c = ' ' ∨ c ∈ s := by
  intro b s
  induction s generalizing b with
  | nil => intro h; cases b <;> exact absurd h (by simp [collapseWsA])
  | cons d cs ih =>
    intro h
    cases b <;> rw [collapseWsA] at h
    · split at h
      · rcases List.mem_cons.1 h with rfl | h'
        · exact Or.inl rfl
        · rcases ih _ h' with h2 | h2
          · exact Or.inl h2
          · exact Or.inr (List.mem_cons_of_mem _ h2)
      · rcases List.mem_cons.1 h with rfl | h'
        · exact Or.inr (List.mem_cons_self _ _)
        · rcases ih _ h' with h2 | h2
          · exact Or.inl h2
          · exact Or.inr (List.mem_cons_of_mem _ h2)
    · split at h
      · rcases ih _ h with h2 | h2
        · exact Or.inl h2
        · exact Or.inr (List.mem_cons_of_mem _ h2)
      · rcases List.mem_cons.1 h with rfl | h'
        · exact Or.inr (List.mem_cons_self _ _)
        · rcases ih _ h' with h2 | h2
          · exact Or.inl h2
          · exact Or.inr (List.mem_cons_of_mem _ h2)

theorem mem_pyStrip {c : Char} {l : List Char} (h : c ∈ pyStrip l) : c ∈ l := by
  rw [pyStrip] at h
  exact (List.dropWhile_sublist isSpace).subset
    ((List.rdropWhile_prefix isSpace (l.dropWhile isSpace)).sublist.subset h)

theorem pyLower_eq_self {l : List Char} (h : noUpper l) : pyLower l = l := by
  rw [pyLower]
  induction l with
  | nil => rfl
  | cons c cs ih =>
    rw [List.map_cons]
    have hc := h c (List.mem_cons_self _ _)
    have hlow : Char.toLower c = c := by
      rw [Char.toLower, if_neg (by omega)]
    rw [hlow, ih (fun x hx => h x (List.mem_cons_of_mem _ hx))]

/-! ## Claim theorems: text normalization -/

/-- C3 fails on the code: `clean_text` removes URL tokens before
lowercasing, so an upper-case `WWW`/`HTTP` token survives the first pass
and is removed by a second one: `clean_text("WWW.a") = "www.a"` but
`clean_text("www.a") = ""`. -/
theorem cleanText_not_idempotent :
    cleanText (cleanText (String.data "WWW.a")) ≠ cleanText (String.data "WWW.a") := by
  decide

/-- C3 (amended): `clean_text` is idempotent on every caption without
upper-case basic latin letters (the inputs whose lowering cannot create a
fresh `http`/`www` token for the second pass to remove). -/
theorem cleanText_idempotent_of_noUpper (l : List Char) (h : noUpper l) :
    cleanText (cleanText l) = cleanText l := by
  by_cases hnil : l = []
  · subst hnil; rfl
  have e1 : cleanText l
      = pyLower (pyStrip (collapseWsA false (stripUrlsA false l))) := by
    rw [cleanText, if_neg hnil, stripUrls, collapseWs]
  have hup_a : noUpper (stripUrlsA false l) :=
    fun c hc => h c (mem_stripUrlsA false l hc)
  have hup_b : noUpper (collapseWsA false (stripUrlsA false l)) := by
    intro c hc
    rcases mem_collapseWsA false _ hc with rfl | hc'
    · decide
    · exact hup_a c hc'
  have hup_u : noUpper (pyStrip (collapseWsA false (stripUrlsA false l))) :=
    fun c hc => hup_b c (mem_pyStrip hc)
  have e2 : cleanText l = pyStrip (collapseWsA false (stripUrlsA false l)) := by
    rw [e1, pyLower_eq_self hup_u]
  rw [e2]
  by_cases hunil : pyStrip (collapseWsA false (stripUrlsA false l)) = []
  · rw [hunil]
    rfl
  have uf_u : urlFree (pyStrip (collapseWsA false (stripUrlsA false l))) = true :=
    urlFree_pyStrip (urlFree_collapseWsA (stripUrlsA false l).length _ le_rfl
      (urlFree_stripUrlsA l).1)
  have gw_u : goodWs (pyStrip (collapseWsA false (stripUrlsA false l))) = true :=
    goodWs_pyStrip (goodWs_collapseWsA (stripUrlsA false l)).1
  rw [cleanText, if_neg hunil, stripUrls, collapseWs, stripUrlsA_eq_self uf_u,
    (collapseWsA_of_goodWs _ gw_u).1, pyStrip_pyStrip,
    pyLower_eq_self hup_u]

/-- Witness for the amended C3 at a concrete lower-case caption with URL
tokens and ragged whitespace. -/
theorem cleanText_idempotent_of_noUpper_witness :
    cleanText (cleanText (String.data "  visit http://t.co  and www.x.y  now "))
      = cleanText (String.data "  visit http://t.co  and www.x.y  now ") :=
  cleanText_idempotent_of_noUpper _ (by decide)

end TheGab
